import Mathlib

/-!
Verification of the FastGitFileHistory core: the LCS line aligner
(`buildMergedLines` in `src/extension.ts` / `src/unnamed/part_001`) and the
diff presenter that re-splits highlighted markup into per-line fragments
(`splitHighlightedHtmlToLines` in `src/extension.ts`, `nodeToLines` /
`renderCombinedHighlighted` in `src/unnamed/part_001`).
-/

namespace FastGitFileHistory

/-- The classification of a merged line: unchanged, deleted from old, or
added in new.  Mirrors the string literals `'same' | 'del' | 'add'` used by
`buildMergedLines`. -/
inductive Kind where
  | same
  | del
  | add
deriving DecidableEq, Repr

/-- One record of the merged view: `{ type: 'same'|'del'|'add', text }`
as pushed by `buildMergedLines`. -/
structure LineRecord where
  type : Kind
  text : String
deriving DecidableEq, Repr

/-- The dynamic-programming table of `buildMergedLines`, expressed on
suffixes: `dp[i][j] = lcsLen old[i:] new[j:]`, following the recurrence of
the source exactly: `dp[i][j] = 1 + dp[i+1][j+1]` when `old[i] == new[j]`,
`max (dp[i+1][j]) (dp[i][j+1])` otherwise, with zero base rows
`dp[m][*] = dp[*][n] = 0`. -/
def lcsLen : List String → List String → Nat
  | [], _ => 0
  | _, [] => 0
  | a :: as, b :: bs =>
    if a = b then 1 + lcsLen as bs
    else max (lcsLen as (b :: bs)) (lcsLen (a :: as) bs)
termination_by as bs => (as.length, bs.length)

/-- The reconstruction walk of `buildMergedLines` over two line sequences
(the pure `computeMergedLines` entry point of the spec): while both remain,
emit `same` (with `newLines[j]` as text) when the heads agree, otherwise
emit `del` when `dp[i+1][j] >= dp[i][j+1]` and `add` otherwise; afterwards
drain the leftover side as all-`del` / all-`add`. -/
def computeMergedLines : List String → List String → List LineRecord
  | [], bs => bs.map (fun t => { type := Kind.add, text := t })
  | as, [] => as.map (fun t => { type := Kind.del, text := t })
  | a :: as, b :: bs =>
    if a = b then
      { type := Kind.same, text := b } :: computeMergedLines as bs
    else if lcsLen as (b :: bs) ≥ lcsLen (a :: as) bs then
      { type := Kind.del, text := a } :: computeMergedLines as (b :: bs)
    else
      { type := Kind.add, text := b } :: computeMergedLines (a :: as) bs
termination_by as bs => (as.length, bs.length)

/-- Splitting a character sequence at every newline, exactly as the
JavaScript `text.split('\n')` does (an empty input gives one empty
segment, `n` newlines give `n + 1` segments). -/
def splitNl : List Char → List (List Char)
  | [] => [[]]
  | c :: cs =>
    if c = '\n' then [] :: splitNl cs
    else
      match splitNl cs with
      | [] => [[c]]
      | l :: ls => (c :: l) :: ls

/-- The line derivation of `buildMergedLines`:
`oldText ? oldText.split('\n') : []` — the empty string yields zero lines,
any other text is split on the newline character. -/
def toLines (t : String) : List String :=
  if t = "" then [] else (splitNl t.data).map (fun cs => String.mk cs)

/-- `buildMergedLines(oldText, newText)` from the source: derive the line
sequences from the raw text blobs and run the LCS reconstruction walk. -/
def buildMergedLines (oldText newText : String) : List LineRecord :=
  computeMergedLines (toLines oldText) (toLines newText)

/-- Projection of the `same`+`del` records to their texts: the claim's
"subsequence of records whose kind is same or delete, projected to text". -/
def oldView (l : List LineRecord) : List String :=
  (l.filter (fun r => r.type == Kind.same || r.type == Kind.del)).map (fun r => r.text)

/-- Projection of the `same`+`add` records to their texts. -/
def newView (l : List LineRecord) : List String :=
  (l.filter (fun r => r.type == Kind.same || r.type == Kind.add)).map (fun r => r.text)

/-- Number of `same` records. -/
def sameCount (l : List LineRecord) : Nat :=
  (l.filter (fun r => r.type == Kind.same)).length

/-- Number of `del` records. -/
def delCount (l : List LineRecord) : Nat :=
  (l.filter (fun r => r.type == Kind.del)).length

/-- Number of `add` records. -/
def addCount (l : List LineRecord) : Nat :=
  (l.filter (fun r => r.type == Kind.add)).length

/-- Number of records that are not `same`. -/
def nonSameCount (l : List LineRecord) : Nat :=
  (l.filter (fun r => r.type != Kind.same)).length

/-- The texts of the `same` records, in order. -/
def sameTexts (l : List LineRecord) : List String :=
  (l.filter (fun r => r.type == Kind.same)).map (fun r => r.text)

/-- `n` is the length of a longest common subsequence of `old` and `new`:
some common sublist attains it and none exceeds it. -/
def IsLCSLength (old new : List String) (n : Nat) : Prop :=
  (∃ s : List String, s.Sublist old ∧ s.Sublist new ∧ s.length = n)
  ∧ ∀ s : List String, s.Sublist old → s.Sublist new → s.length ≤ n

/-! ### Helper lemmas about the drained all-add / all-del tails -/

theorem oldView_map_add (bs : List String) :
    oldView (bs.map (fun t => { type := Kind.add, text := t })) = [] := by
  induction bs with
  | nil => rfl
  | cons b bs ih => simpa [oldView] using ih

theorem newView_map_add (bs : List String) :
    newView (bs.map (fun t => { type := Kind.add, text := t })) = bs := by
  induction bs with
  | nil => rfl
  | cons b bs ih => simp_all [newView]

theorem oldView_map_del (as : List String) :
    oldView (as.map (fun t => { type := Kind.del, text := t })) = as := by
  induction as with
  | nil => rfl
  | cons a as ih => simp_all [oldView]

theorem newView_map_del (as : List String) :
    newView (as.map (fun t => { type := Kind.del, text := t })) = [] := by
  induction as with
  | nil => rfl
  | cons a as ih => simpa [newView] using ih

theorem sameCount_map_add (bs : List String) :
    sameCount (bs.map (fun t => { type := Kind.add, text := t })) = 0 := by
  induction bs with
  | nil => rfl
  | cons b bs ih => simpa [sameCount] using ih

theorem sameCount_map_del (as : List String) :
    sameCount (as.map (fun t => { type := Kind.del, text := t })) = 0 := by
  induction as with
  | nil => rfl
  | cons a as ih => simpa [sameCount] using ih

theorem sameTexts_map_add (bs : List String) :
    sameTexts (bs.map (fun t => { type := Kind.add, text := t })) = [] := by
  induction bs with
  | nil => rfl
  | cons b bs ih => simpa [sameTexts] using ih

theorem sameTexts_map_del (as : List String) :
    sameTexts (as.map (fun t => { type := Kind.del, text := t })) = [] := by
  induction as with
  | nil => rfl
  | cons a as ih => simpa [sameTexts] using ih

/-! ### The base equations of `lcsLen` -/

theorem lcsLen_nil_left (bs : List String) : lcsLen [] bs = 0 := by
  rw [lcsLen]

theorem lcsLen_nil_right (as : List String) : lcsLen as [] = 0 := by
  cases as with
  | nil => rw [lcsLen]
  | cons a as =>
      rw [lcsLen]
      exact fun h => List.noConfusion h

/-! ### Reconstruction invariant -/

theorem reconstruct (old new : List String) :
    oldView (computeMergedLines old new) = old
  ∧ newView (computeMergedLines old new) = new := by
  induction old, new using computeMergedLines.induct with
  | case1 bs =>
      rw [computeMergedLines]
      exact ⟨oldView_map_add bs, newView_map_add bs⟩
  | case2 as h =>
      rw [computeMergedLines]
      · exact ⟨oldView_map_del as, newView_map_del as⟩
      · exact h
  | case3 as b bs ih =>
      rw [computeMergedLines]
      simp_all [oldView, newView]
  | case4 a as b bs hne hge ih =>
      rw [computeMergedLines, if_neg hne, if_pos hge]
      simp_all [oldView, newView]
  | case5 a as b bs hne hge ih =>
      rw [computeMergedLines, if_neg hne, if_neg hge]
      simp_all [oldView, newView]

/-! ### The `same` records realize the DP value -/

theorem sameCount_eq_lcsLen (old new : List String) :
    sameCount (computeMergedLines old new) = lcsLen old new := by
  induction old, new using computeMergedLines.induct with
  | case1 bs =>
      rw [computeMergedLines, lcsLen_nil_left]
      exact sameCount_map_add bs
  | case2 as h =>
      rw [computeMergedLines]
      · rw [lcsLen_nil_right]
        exact sameCount_map_del as
      · exact h
  | case3 as b bs ih =>
      rw [computeMergedLines, lcsLen, if_pos rfl]
      simp_all [sameCount]
      omega
  | case4 a as b bs hne hge ih =>
      rw [computeMergedLines, if_neg hne, if_pos hge, lcsLen, if_neg hne,
        max_eq_left hge]
      simpa [sameCount] using ih
  | case5 a as b bs hne hge ih =>
      rw [computeMergedLines, if_neg hne, if_neg hge, lcsLen, if_neg hne,
        max_eq_right (le_of_not_le hge)]
      simpa [sameCount] using ih

/-- The `same` texts form a common subsequence of `old` and `new`. -/
theorem sameTexts_sublist (old new : List String) :
    (sameTexts (computeMergedLines old new)).Sublist old
  ∧ (sameTexts (computeMergedLines old new)).Sublist new := by
  induction old, new using computeMergedLines.induct with
  | case1 bs =>
      rw [computeMergedLines, sameTexts_map_add]
      exact ⟨List.nil_sublist _, List.nil_sublist _⟩
  | case2 as h =>
      rw [computeMergedLines]
      · rw [sameTexts_map_del]
        exact ⟨List.nil_sublist _, List.nil_sublist _⟩
      · exact h
  | case3 as b bs ih =>
      rw [computeMergedLines, if_pos rfl]
      have he : sameTexts ({ type := Kind.same, text := b } :: computeMergedLines as bs)
          = b :: sameTexts (computeMergedLines as bs) := by
        simp [sameTexts]
      rw [he]
      exact ⟨List.cons_sublist_cons.mpr ih.1, List.cons_sublist_cons.mpr ih.2⟩
  | case4 a as b bs hne hge ih =>
      rw [computeMergedLines, if_neg hne, if_pos hge]
      refine ⟨?_, ?_⟩
      · simpa [sameTexts] using ih.1.trans (List.sublist_cons_self a as)
      · simpa [sameTexts] using ih.2
  | case5 a as b bs hne hge ih =>
      rw [computeMergedLines, if_neg hne, if_neg hge]
      refine ⟨?_, ?_⟩
      · simpa [sameTexts] using ih.1
      · simpa [sameTexts] using ih.2.trans (List.sublist_cons_self b bs)

/-- No common subsequence is longer than the DP value. -/
theorem lcsLen_upperBound (a b : List String) :
    ∀ s : List String, s.Sublist a → s.Sublist b → s.length ≤ lcsLen a b := by
  induction a, b using lcsLen.induct with
  | case1 b =>
      intro s hs _
      simp_all [List.sublist_nil]
  | case2 a h =>
      intro s _ hs
      rw [lcsLen_nil_right]
      simp_all [List.sublist_nil]
  | case3 as b bs ih =>
      intro s hsa hsb
      rw [lcsLen, if_pos rfl]
      match s, hsa, hsb with
      | [], _, _ => simp
      | z :: s', hsa, hsb =>
        cases hsa with
        | cons₂ _ h₁ =>
            cases hsb with
            | cons₂ _ h₂ =>
                have := ih s' h₁ h₂
                simp only [List.length_cons]
                omega
            | cons _ h₂ =>
                have h₂' : s'.Sublist bs := (List.sublist_cons_self b s').trans h₂
                have := ih s' h₁ h₂'
                simp only [List.length_cons]
                omega
        | cons _ h₁ =>
            cases hsb with
            | cons₂ _ h₂ =>
                have h₁' : s'.Sublist as := (List.sublist_cons_self _ s').trans h₁
                have := ih s' h₁' h₂
                simp only [List.length_cons]
                omega
            | cons _ h₂ =>
                have := ih (z :: s') h₁ h₂
                omega
  | case4 a as b bs hne ih1 ih2 =>
      intro s hsa hsb
      rw [lcsLen, if_neg hne]
      match s, hsa, hsb with
      | [], _, _ => simp
      | z :: s', hsa, hsb =>
        cases hsa with
        | cons₂ _ h₁ =>
            cases hsb with
            | cons₂ _ h₂ => exact absurd rfl hne
            | cons _ h₂ =>
                exact le_trans (ih2 _ (List.cons_sublist_cons.mpr h₁) h₂) (le_max_right _ _)
        | cons _ h₁ =>
            exact le_trans (ih1 (z :: s') h₁ hsb) (le_max_left _ _)

/-! ### Counting lemmas -/

theorem counts_partition (l : List LineRecord) :
    sameCount l + delCount l + addCount l = l.length := by
  induction l with
  | nil => rfl
  | cons r l ih =>
      obtain ⟨t, x⟩ := r
      cases t <;> simp_all [sameCount, delCount, addCount, List.filter_cons] <;> omega

theorem nonSameCount_split (l : List LineRecord) :
    nonSameCount l = delCount l + addCount l := by
  induction l with
  | nil => rfl
  | cons r l ih =>
      obtain ⟨t, x⟩ := r
      cases t <;> simp_all [nonSameCount, delCount, addCount, List.filter_cons] <;> omega

theorem oldView_length (l : List LineRecord) :
    (oldView l).length = sameCount l + delCount l := by
  induction l with
  | nil => rfl
  | cons r l ih =>
      obtain ⟨t, x⟩ := r
      cases t <;> simp_all [oldView, sameCount, delCount, List.filter_cons] <;> omega

theorem newView_length (l : List LineRecord) :
    (newView l).length = sameCount l + addCount l := by
  induction l with
  | nil => rfl
  | cons r l ih =>
      obtain ⟨t, x⟩ := r
      cases t <;> simp_all [newView, sameCount, addCount, List.filter_cons] <;> omega

theorem sameTexts_length (l : List LineRecord) :
    (sameTexts l).length = sameCount l := by
  simp [sameTexts, sameCount]

/-! ### Splitting raw text into lines -/

theorem splitNl_ne_nil (cs : List Char) : splitNl cs ≠ [] := by
  cases cs with
  | nil => simp [splitNl]
  | cons c cs =>
      rw [splitNl]
      split
      · simp
      · split <;> simp

theorem splitNl_no_newline (cs : List Char) (h : '\n' ∉ cs) : splitNl cs = [cs] := by
  induction cs with
  | nil => rfl
  | cons c cs ih =>
      rw [splitNl, if_neg (fun hc : c = '\n' => h (hc ▸ List.mem_cons_self c cs)),
        ih (fun hm => h (List.mem_cons_of_mem c hm))]

/-! ### Claim theorems for the line aligner -/

/-- C1: for every pair of line sequences, the `same`+`del` records of
`computeMergedLines old new`, projected to their texts, reproduce `old`
exactly, and the `same`+`add` records reproduce `new` exactly. -/
theorem claim1_reconstruction (old new : List String) :
    oldView (computeMergedLines old new) = old
  ∧ newView (computeMergedLines old new) = new :=
  reconstruct old new

/-- C2: whenever the reconstruction walk sees differing heads with tied DP
scores (`dp[i+1][j] = dp[i][j+1]`), it emits a `del` record and advances the
old side; concretely, `["a","b","c"]` against `["a","x","c"]` produces
`[same a, del b, add x, same c]`. -/
theorem claim2_tiebreak (a b : String) (as bs : List String)
    (hne : a ≠ b) (htie : lcsLen as (b :: bs) = lcsLen (a :: as) bs) :
    computeMergedLines (a :: as) (b :: bs)
      = { type := Kind.del, text := a } :: computeMergedLines as (b :: bs)
    ∧ computeMergedLines ["a", "b", "c"] ["a", "x", "c"]
      = [{ type := Kind.same, text := "a" }, { type := Kind.del, text := "b" },
         { type := Kind.add, text := "x" }, { type := Kind.same, text := "c" }] := by
  constructor
  · rw [computeMergedLines, if_neg hne, if_pos htie.ge]
  · simp [computeMergedLines, lcsLen]

/-- Witness for C2 at the tied position `["b","c"]` vs `["x","c"]`. -/
theorem claim2_tiebreak_witness :
    computeMergedLines ["b", "c"] ["x", "c"]
      = { type := Kind.del, text := "b" } :: computeMergedLines ["c"] ["x", "c"] :=
  (claim2_tiebreak "b" "x" ["c"] ["c"] (by decide) (by simp [lcsLen])).1

/-- C3: the number of non-`same` records equals
`|old| + |new| - 2 * LCS_length(old, new)`, where the DP value `lcsLen` is
indeed the length of a longest common subsequence (attained by some common
sublist and exceeded by none). -/
theorem claim3_minimality (old new : List String) :
    nonSameCount (computeMergedLines old new)
      = old.length + new.length - 2 * lcsLen old new
  ∧ IsLCSLength old new (lcsLen old new) := by
  have hs := sameCount_eq_lcsLen old new
  have hpart := counts_partition (computeMergedLines old new)
  have hns := nonSameCount_split (computeMergedLines old new)
  have hov := oldView_length (computeMergedLines old new)
  have hnv := newView_length (computeMergedLines old new)
  have hol : (oldView (computeMergedLines old new)).length = old.length := by
    rw [(reconstruct old new).1]
  have hnl : (newView (computeMergedLines old new)).length = new.length := by
    rw [(reconstruct old new).2]
  refine ⟨by omega, ⟨sameTexts (computeMergedLines old new),
    (sameTexts_sublist old new).1, (sameTexts_sublist old new).2, ?_⟩,
    lcsLen_upperBound old new⟩
  rw [sameTexts_length]
  exact hs

/-- C7: the aligner degenerates gracefully on empty inputs: an empty old
side yields all-`add` records carrying `new` in order, an empty new side
yields all-`del` records carrying `old` in order, and two empty sides yield
the empty merged view. -/
theorem claim7_degenerate :
    (∀ new : List String, computeMergedLines [] new
        = new.map (fun t => { type := Kind.add, text := t }))
  ∧ (∀ old : List String, computeMergedLines old []
        = old.map (fun t => { type := Kind.del, text := t }))
  ∧ computeMergedLines [] [] = [] := by
  refine ⟨fun new => by rw [computeMergedLines], fun old => ?_, ?_⟩
  · cases old with
    | nil =>
        rw [computeMergedLines]
        rfl
    | cons a as =>
        rw [computeMergedLines]
        exact fun h => List.noConfusion h
  · rw [computeMergedLines]
    rfl

/-- C8: `computeMergedLines` is a total function (it is accepted by Lean as
a terminating definition over all inputs) and its output size is governed by
`(length) + lcsLen = |old| + |new|`; in particular the merged view never
exceeds `|old| + |new|` records and no input is rejected. -/
theorem claim8_totality (old new : List String) :
    (computeMergedLines old new).length + lcsLen old new
      = old.length + new.length := by
  have hs := sameCount_eq_lcsLen old new
  have hpart := counts_partition (computeMergedLines old new)
  have hov := oldView_length (computeMergedLines old new)
  have hnv := newView_length (computeMergedLines old new)
  have hol : (oldView (computeMergedLines old new)).length = old.length := by
    rw [(reconstruct old new).1]
  have hnl : (newView (computeMergedLines old new)).length = new.length := by
    rw [(reconstruct old new).2]
  omega

/-- C9: `buildMergedLines` receives raw text blobs and derives the line
sequences itself: the empty string becomes zero lines, so
`buildMergedLines "" t` has no `del` record and `buildMergedLines t ""` has
no `add` record, and a non-empty text without a newline character is treated
as exactly one line. -/
theorem claim9_blob_splitting :
    toLines "" = []
  ∧ (∀ t : String, ∀ r ∈ buildMergedLines "" t, r.type ≠ Kind.del)
  ∧ (∀ t : String, ∀ r ∈ buildMergedLines t "", r.type ≠ Kind.add)
  ∧ (∀ t : String, t ≠ "" → '\n' ∉ t.data → toLines t = [t]) := by
  have hnil : toLines "" = [] := by rw [toLines, if_pos rfl]
  refine ⟨hnil, fun t r hr => ?_, fun t r hr => ?_, fun t ht hnl => ?_⟩
  · rw [buildMergedLines, hnil, computeMergedLines] at hr
    obtain ⟨x, _, rfl⟩ := List.mem_map.mp hr
    simp
  · rw [buildMergedLines, hnil] at hr
    rw [show computeMergedLines (toLines t) []
        = (toLines t).map (fun s => { type := Kind.del, text := s }) from
      (claim7_degenerate.2.1 (toLines t))] at hr
    obtain ⟨x, _, rfl⟩ := List.mem_map.mp hr
    simp
  · rw [toLines, if_neg ht, splitNl_no_newline t.data hnl]
    rfl

/-- Witness for C9: a non-empty, newline-free text is one single line. -/
theorem claim9_blob_splitting_witness : toLines "abc" = ["abc"] :=
  claim9_blob_splitting.2.2.2 "abc" (by decide) (by decide)

/-! ## The diff presenter

The highlighter's output is a DOM fragment: a sequence of text nodes and
element nodes (plus other node kinds, which both presenter drafts skip).
A produced line is modelled as the list of the markup pieces the source
concatenates into the line's string: raw text runs, rendered opening tags
and rendered closing tags. -/

/-- One piece appended to a line buffer by the presenter: a text run, a
rendered opening tag `<tag attr="…">` or a rendered closing tag `</tag>`. -/
inductive Tok where
  | text (s : String)
  | openTag (tag : String) (attrs : List (String × String))
  | closeTag (tag : String)
deriving DecidableEq, Repr

mutual
/-- A node of the highlighter's markup tree: a text node (`nodeValue`), an
element node (tag name, attributes, children) or any other node kind, which
the walks ignore. -/
inductive Node where
  | text (s : String)
  | elem (tag : String) (attrs : List (String × String)) (children : NodeList)
  | other

/-- A sequence of sibling markup nodes (`childNodes`). -/
inductive NodeList where
  | nil
  | cons (n : Node) (ns : NodeList)
end

/-- Attribute-value escaping of part_001's `escapeAttr`
(`&`, `"`, `<`, `>` to entities), one character at a time. -/
def escapeAttrChar (c : Char) : List Char :=
  if c = '&' then "&amp;".data
  else if c = '"' then "&quot;".data
  else if c = '<' then "&lt;".data
  else if c = '>' then "&gt;".data
  else [c]

/-- `escapeAttr` applied to a whole attribute value. -/
def escapeAttr (s : String) : String := String.mk (s.data.flatMap escapeAttrChar)

/-- The rendered attribute part of an opening tag:
`' ' + name + '="' + escapeAttr(value) + '"'` per attribute. -/
def attrsStr (attrs : List (String × String)) : String :=
  attrs.foldl (fun acc kv => acc ++ " " ++ kv.1 ++ "=\"" ++ escapeAttr kv.2 ++ "\"") ""

/-- The string a single line piece contributes to the line's markup. -/
def tokStr : Tok → String
  | Tok.text s => s
  | Tok.openTag tag attrs => "<" ++ tag ++ attrsStr attrs ++ ">"
  | Tok.closeTag tag => "</" ++ tag ++ ">"

/-- The markup string of a whole line buffer (the string the source builds
by `+=` concatenation). -/
def lineStr (l : List Tok) : String := l.foldl (fun acc t => acc ++ tokStr t) ""

/-- The text-node escaping of extension.ts's `escapeHtmlTextNode`
(`&`, `<`, `>` to entities), one character at a time. -/
def escapeTextChar (c : Char) : List Char :=
  if c = '&' then "&amp;".data
  else if c = '<' then "&lt;".data
  else if c = '>' then "&gt;".data
  else [c]

/-- `escapeHtmlTextNode` applied to a whole text segment. -/
def escapeHtmlTextNode (s : String) : String := String.mk (s.data.flatMap escapeTextChar)

/-- The textual content of a line piece: text runs keep their characters,
tags contribute nothing. -/
def tokText : Tok → List Char
  | Tok.text s => s.data
  | Tok.openTag _ _ => []
  | Tok.closeTag _ => []

/-- The textual content of one produced line. -/
def lineText (l : List Tok) : List Char := (l.map tokText).flatten

/-- Joining line contents with newline characters (the inverse reading of
splitting: no trailing separator). -/
def joinNl : List (List Char) → List Char
  | [] => []
  | [l] => l
  | l :: ls => l ++ '\n' :: joinNl ls

/-- The textual content of a whole list of produced lines, rejoined with
line breaks. -/
def linesText (ls : List (List Tok)) : List Char := joinNl (ls.map lineText)

mutual
/-- The textual content of a markup node (its concatenated text nodes). -/
def nodeText : Node → List Char
  | Node.text s => s.data
  | Node.elem _ _ children => nodesText children
  | Node.other => []

/-- The textual content of a sequence of sibling nodes. -/
def nodesText : NodeList → List Char
  | NodeList.nil => []
  | NodeList.cons n ns => nodeText n ++ nodesText ns
end

/-- Appending a child's produced lines to an accumulated line list, as both
drafts do: the child's first line is appended onto the accumulator's last
line, the child's remaining lines are pushed. -/
def mergeLines (acc child : List (List Tok)) : List (List Tok) :=
  acc.dropLast ++ (acc.getLastD [] ++ child.headD []) :: child.tail

mutual
/-- `nodeToLines` from part_001: a text node splits its value on newlines
(one line per segment, unescaped); an element node combines its children's
lines and wraps every produced line in the element's rendered opening tag
(same name, same attributes) and closing tag; other nodes yield one empty
line. -/
def nodeToLines : Node → List (List Tok)
  | Node.text s => (splitNl s.data).map (fun cs => [Tok.text (String.mk cs)])
  | Node.elem tag attrs children =>
      (childLoop [[]] children).map
        (fun l => Tok.openTag tag attrs :: (l ++ [Tok.closeTag tag]))
  | Node.other => [[]]

/-- The child-combination loop of `nodeToLines` (and of part_001's
`renderCombinedHighlighted`): starting from one empty line, fold every
child's lines into the accumulator with `mergeLines`. -/
def childLoop : List (List Tok) → NodeList → List (List Tok)
  | acc, NodeList.nil => acc
  | acc, NodeList.cons c cs => childLoop (mergeLines acc (nodeToLines c)) cs
end

/-- One rendered output line of the webview: its diff classification (the
`line add` / `line del` / plain `line` class) and the line-scoped markup
assigned to `innerHTML`. -/
structure RenderedLine where
  type : Kind
  html : List Tok
deriving DecidableEq, Repr

/-- The `'&nbsp;'` placeholder used for a missing or empty line fragment. -/
def nbspTok : Tok := Tok.text "&nbsp;"

/-- The per-line markup computed by part_001's `renderCombinedHighlighted`
before zipping with the types: combine all top-level nodes' lines, then trim
a trailing empty line caused by a final newline. -/
def highlightLines (nodes : NodeList) : List (List Tok) :=
  let rl := childLoop [[]] nodes
  if rl.length > 1 ∧ lineStr (rl.getLastD []) = "" then rl.dropLast else rl

/-- The output loop of `renderCombinedHighlighted` (identical in both
drafts): `max(hlLines.length, types.length)` wrappers, type
`types[i] || 'same'`, html `hlLines[i]` when present and non-empty,
`'&nbsp;'` otherwise. -/
def renderCombinedHighlighted (nodes : NodeList) (types : List Kind) :
    List RenderedLine :=
  let rl := highlightLines nodes
  (List.range (max rl.length types.length)).map (fun i =>
    { type := types.getD i Kind.same,
      html := if lineStr (rl.getD i []) = "" then [nbspTok] else rl.getD i [] })

/-! ### The extension.ts draft of the re-splitting step -/

/-- `appendToLine(idx, str)` of extension.ts's
`splitHighlightedHtmlToLines`: grow the line array with empty lines until
index `idx` exists, then append the piece to line `idx`. -/
def padTo (lines : List (List Tok)) (idx : Nat) : List (List Tok) :=
  lines ++ List.replicate (idx + 1 - lines.length) []

/-- `appendToLine` proper. -/
def appendToLine (lines : List (List Tok)) (idx : Nat) (ts : List Tok) :
    List (List Tok) :=
  (padTo lines idx).set idx ((padTo lines idx).getD idx [] ++ ts)

/-- The text-node part of extension.ts's `walk`: append each escaped
segment at the cursor, advancing the cursor at each internal newline. -/
def walkText : List (List Tok) → Nat → List (List Char) → List (List Tok) × Nat
  | lines, li, [] => (lines, li)
  | lines, li, [p] =>
      (appendToLine lines li [Tok.text (escapeHtmlTextNode (String.mk p))], li)
  | lines, li, p :: ps =>
      walkText (appendToLine lines li [Tok.text (escapeHtmlTextNode (String.mk p))])
        (li + 1) ps

/-- The closing loop of extension.ts's `walk`: append the rendered closing
tag to every line from `start` to `stop` inclusive. -/
def closeLines (lines : List (List Tok)) (start stop : Nat) (tag : String) :
    List (List Tok) :=
  (List.range (stop + 1 - start)).foldl
    (fun ls k => appendToLine ls (start + k) [Tok.closeTag tag]) lines

mutual
/-- extension.ts's `walk(node, lineIndex)`: text nodes distribute their
segments; an element node appends its rendered opening tag once at the
start line, walks its children, then appends the closing tag to every line
it touched (without re-opening on continuation lines); other nodes are
skipped.  Returns the updated line array and cursor. -/
def walk : List (List Tok) → Nat → Node → List (List Tok) × Nat
  | lines, li, Node.text s => walkText lines li (splitNl s.data)
  | lines, li, Node.elem tag attrs children =>
      let lines1 := appendToLine lines li [Tok.openTag tag attrs]
      let r := walkChildren lines1 li children
      (closeLines r.1 li r.2 tag, r.2)
  | lines, li, Node.other => (lines, li)

/-- Walking a sequence of children, threading the cursor. -/
def walkChildren : List (List Tok) → Nat → NodeList → List (List Tok) × Nat
  | lines, li, NodeList.nil => (lines, li)
  | lines, li, NodeList.cons c cs =>
      walkChildren (walk lines li c).1 (walk lines li c).2 cs
end

/-- The top-level loop of extension.ts's `splitHighlightedHtmlToLines`:
`for n: walk(container.childNodes[n], 0)` — each top-level node is walked
with cursor `0` and the returned cursor is discarded, exactly as in the
source. -/
def walkNodesAtZero : List (List Tok) → NodeList → List (List Tok)
  | lines, NodeList.nil => lines
  | lines, NodeList.cons c cs => walkNodesAtZero (walk lines 0 c).1 cs

/-- extension.ts's `splitHighlightedHtmlToLines`: walk all top-level nodes
into a line array starting as one empty line, then trim a trailing empty
line. -/
def splitHighlightedHtmlToLines (nodes : NodeList) : List (List Tok) :=
  let lines := walkNodesAtZero [[]] nodes
  if lines.length > 1 ∧ lineStr (lines.getLastD []) = "" then lines.dropLast
  else lines

/-! ### A well-formedness checker for produced line fragments -/

/-- Tag-balance checker: scan a line's pieces with a stack of open tag
names; opening tags push, closing tags must match the top of the stack. -/
def balAux : List Tok → List String → Option (List String)
  | [], stack => some stack
  | Tok.text _ :: rest, stack => balAux rest stack
  | Tok.openTag tag _ :: rest, stack => balAux rest (tag :: stack)
  | Tok.closeTag tag :: rest, stack =>
      match stack with
      | [] => none
      | t :: stack' => if t = tag then balAux rest stack' else none

/-- A line fragment is self-contained, well-formed markup: scanning it from
an empty stack succeeds and ends with an empty stack (every element opened
in the line is closed in it and vice versa). -/
def balancedToks (l : List Tok) : Bool := balAux l [] == some []

/-! ### Unfolding equations for the mutual presenter functions -/

theorem nodeToLines_text (s : String) :
    nodeToLines (Node.text s)
      = (splitNl s.data).map (fun cs => [Tok.text (String.mk cs)]) := rfl

theorem nodeToLines_elem (tag : String) (attrs : List (String × String))
    (children : NodeList) :
    nodeToLines (Node.elem tag attrs children)
      = (childLoop [[]] children).map
          (fun l => Tok.openTag tag attrs :: (l ++ [Tok.closeTag tag])) := rfl

theorem nodeToLines_other : nodeToLines Node.other = [[]] := rfl

theorem childLoop_nil (acc : List (List Tok)) :
    childLoop acc NodeList.nil = acc := rfl

theorem childLoop_cons (acc : List (List Tok)) (c : Node) (cs : NodeList) :
    childLoop acc (NodeList.cons c cs)
      = childLoop (mergeLines acc (nodeToLines c)) cs := rfl

theorem nodeText_text (s : String) : nodeText (Node.text s) = s.data := rfl

theorem nodeText_elem (tag : String) (attrs : List (String × String))
    (children : NodeList) :
    nodeText (Node.elem tag attrs children) = nodesText children := rfl

theorem nodeText_other : nodeText Node.other = [] := rfl

theorem nodesText_nil : nodesText NodeList.nil = [] := rfl

theorem nodesText_cons (n : Node) (ns : NodeList) :
    nodesText (NodeList.cons n ns) = nodeText n ++ nodesText ns := rfl

/-! ### Line-count lemmas for the presenter -/

theorem splitNl_length (cs : List Char) :
    (splitNl cs).length = cs.count '\n' + 1 := by
  induction cs with
  | nil => rfl
  | cons c cs ih =>
      rw [splitNl]
      by_cases hc : c = '\n'
      · rw [if_pos hc]
        simp [hc, List.count_cons, ih]
      · rw [if_neg hc]
        rcases hsp : splitNl cs with _ | ⟨l, ls⟩
        · exact absurd hsp (splitNl_ne_nil cs)
        · rw [hsp] at ih
          simp only [List.length_cons] at ih ⊢
          have : (c == '\n') = false := by simp [hc]
          simp [List.count_cons, this]
          omega

theorem mergeLines_ne_nil (acc child : List (List Tok)) :
    mergeLines acc child ≠ [] := by
  simp [mergeLines]

theorem mergeLines_length (acc child : List (List Tok)) :
    (mergeLines acc child).length = acc.length - 1 + (child.length - 1) + 1 := by
  simp [mergeLines, List.length_dropLast, List.length_tail]
  omega

theorem nodeToLines_length_aux :
    (∀ n, (nodeToLines n).length = (nodeText n).count '\n' + 1)
  ∧ (∀ (acc : List (List Tok)) (ns : NodeList), acc ≠ [] →
      (childLoop acc ns).length = acc.length + (nodesText ns).count '\n') :=
  nodeToLines.mutual_induct
    (fun n => (nodeToLines n).length = (nodeText n).count '\n' + 1)
    (fun acc ns => acc ≠ [] →
      (childLoop acc ns).length = acc.length + (nodesText ns).count '\n')
    (fun s => by
      show (nodeToLines (Node.text s)).length
        = (nodeText (Node.text s)).count '\n' + 1
      rw [nodeToLines_text, nodeText_text, List.length_map]
      exact splitNl_length s.data)
    (fun tag attrs children ih => by
      show (nodeToLines (Node.elem tag attrs children)).length
        = (nodeText (Node.elem tag attrs children)).count '\n' + 1
      rw [nodeToLines_elem, nodeText_elem, List.length_map]
      rw [ih (by simp)]
      simp [Nat.add_comm])
    (by
      show (nodeToLines Node.other).length = (nodeText Node.other).count '\n' + 1
      rw [nodeToLines_other, nodeText_other]
      rfl)
    (fun acc => by
      intro _
      rw [childLoop_nil, nodesText_nil]
      simp)
    (fun acc c cs ih1 ih2 => by
      intro hacc
      have ih1' : (nodeToLines c).length = (nodeText c).count '\n' + 1 := ih1
      rw [childLoop_cons, nodesText_cons]
      rw [ih2 (mergeLines_ne_nil acc (nodeToLines c))]
      rw [mergeLines_length, ih1', List.count_append]
      have : 0 < acc.length := List.length_pos.mpr hacc
      omega)

theorem nodeToLines_length (n : Node) :
    (nodeToLines n).length = (nodeText n).count '\n' + 1 :=
  nodeToLines_length_aux.1 n

theorem childLoop_length (acc : List (List Tok)) (ns : NodeList) (h : acc ≠ []) :
    (childLoop acc ns).length = acc.length + (nodesText ns).count '\n' :=
  nodeToLines_length_aux.2 acc ns h

theorem nodeToLines_ne_nil (n : Node) : nodeToLines n ≠ [] := by
  have h := nodeToLines_length n
  intro hc
  rw [hc] at h
  simp at h

theorem childLoop_ne_nil (acc : List (List Tok)) (ns : NodeList) (h : acc ≠ []) :
    childLoop acc ns ≠ [] := by
  have hl := childLoop_length acc ns h
  have : 0 < acc.length := List.length_pos.mpr h
  intro hc
  rw [hc] at hl
  simp at hl
  omega

/-! ### Text preservation through the part_001 presenter -/

theorem lineText_append (x y : List Tok) :
    lineText (x ++ y) = lineText x ++ lineText y := by
  simp [lineText]

theorem joinNl_cons_of_ne_nil (x : List Char) (ls : List (List Char))
    (h : ls ≠ []) : joinNl (x :: ls) = x ++ '\n' :: joinNl ls := by
  cases ls with
  | nil => exact absurd rfl h
  | cons y ys => rfl

theorem joinNl_head_append (x y : List Char) (ls : List (List Char)) :
    joinNl ((x ++ y) :: ls) = x ++ joinNl (y :: ls) := by
  cases ls with
  | nil => rfl
  | cons z zs => simp [joinNl]

theorem joinNl_splitNl (cs : List Char) : joinNl (splitNl cs) = cs := by
  induction cs with
  | nil => rfl
  | cons c cs ih =>
      rw [splitNl]
      by_cases hc : c = '\n'
      · rw [if_pos hc, joinNl_cons_of_ne_nil _ _ (splitNl_ne_nil cs), ih, hc]
        rfl
      · rw [if_neg hc]
        rcases hsp : splitNl cs with _ | ⟨l, ls⟩
        · exact absurd hsp (splitNl_ne_nil cs)
        · rw [hsp] at ih
          cases ls with
          | nil =>
              simp only [joinNl] at ih ⊢
              rw [ih]
          | cons m ms =>
              rw [joinNl_cons_of_ne_nil _ _ (by simp)] at ih
              rw [joinNl_cons_of_ne_nil _ _ (by simp)]
              simp [ih]

theorem linesText_singleton (x : List Tok) : linesText [x] = lineText x := rfl

theorem linesText_cons_of_ne_nil (x : List Tok) (ls : List (List Tok))
    (h : ls ≠ []) : linesText (x :: ls) = lineText x ++ '\n' :: linesText ls := by
  rw [linesText, List.map_cons,
    joinNl_cons_of_ne_nil _ _ (by simpa using h)]
  rfl

theorem mergeLines_cons_cons (a r : List Tok) (rs child : List (List Tok)) :
    mergeLines (a :: r :: rs) child = a :: mergeLines (r :: rs) child := by
  simp [mergeLines]

theorem mergeLines_linesText (acc child : List (List Tok))
    (hacc : acc ≠ []) (hchild : child ≠ []) :
    linesText (mergeLines acc child) = linesText acc ++ linesText child := by
  induction acc with
  | nil => exact absurd rfl hacc
  | cons a rest ih =>
      cases rest with
      | nil =>
          cases child with
          | nil => exact absurd rfl hchild
          | cons ch0 ct =>
              show linesText ((a ++ ch0) :: ct) = linesText [a] ++ linesText (ch0 :: ct)
              rw [linesText, linesText, linesText, List.map_cons, lineText_append,
                joinNl_head_append]
              simp [joinNl]
      | cons r rs =>
          rw [mergeLines_cons_cons]
          have hm : mergeLines (r :: rs) child ≠ [] := mergeLines_ne_nil _ _
          rw [linesText_cons_of_ne_nil _ _ hm, ih (by simp),
            linesText_cons_of_ne_nil a (r :: rs) (by simp)]
          simp

theorem lineText_wrap (tag : String) (attrs : List (String × String))
    (l : List Tok) :
    lineText (Tok.openTag tag attrs :: (l ++ [Tok.closeTag tag])) = lineText l := by
  simp [lineText, tokText]

theorem presenter_text_aux :
    (∀ n, linesText (nodeToLines n) = nodeText n)
  ∧ (∀ (acc : List (List Tok)) (ns : NodeList), acc ≠ [] →
      linesText (childLoop acc ns) = linesText acc ++ nodesText ns) :=
  nodeToLines.mutual_induct
    (fun n => linesText (nodeToLines n) = nodeText n)
    (fun acc ns => acc ≠ [] →
      linesText (childLoop acc ns) = linesText acc ++ nodesText ns)
    (fun s => by
      show linesText (nodeToLines (Node.text s)) = nodeText (Node.text s)
      rw [nodeToLines_text, nodeText_text, linesText, List.map_map]
      have : (lineText ∘ fun cs => [Tok.text (String.mk cs)])
          = fun cs : List Char => cs := by
        funext cs
        simp [lineText, tokText]
      rw [this]
      simp [joinNl_splitNl])
    (fun tag attrs children ih => by
      show linesText (nodeToLines (Node.elem tag attrs children))
        = nodeText (Node.elem tag attrs children)
      have ih' : linesText (childLoop [[]] children)
          = linesText [[]] ++ nodesText children := ih (by simp)
      rw [nodeToLines_elem, nodeText_elem, linesText, List.map_map]
      have : (lineText ∘ fun l => Tok.openTag tag attrs :: (l ++ [Tok.closeTag tag]))
          = lineText := by
        funext l
        exact lineText_wrap tag attrs l
      rw [this]
      rw [linesText] at ih'
      rw [ih']
      simp [linesText, lineText, joinNl])
    (by
      show linesText (nodeToLines Node.other) = nodeText Node.other
      rfl)
    (fun acc => by
      intro _
      rw [childLoop_nil, nodesText_nil, List.append_nil])
    (fun acc c cs ih1 ih2 => by
      intro hacc
      have ih1' : linesText (nodeToLines c) = nodeText c := ih1
      rw [childLoop_cons, ih2 (mergeLines_ne_nil acc (nodeToLines c)),
        mergeLines_linesText acc (nodeToLines c) hacc (nodeToLines_ne_nil c),
        ih1', nodesText_cons, List.append_assoc])

/-- Text preservation, the general positive statement behind the spec's
"behaviorally equivalent": rejoining the per-line fragments produced by
part_001's `nodeToLines` with line breaks reproduces the node's textual
content exactly. -/
theorem nodeToLines_text_preserved (n : Node) :
    linesText (nodeToLines n) = nodeText n :=
  presenter_text_aux.1 n

/-- Text preservation for the top-level combination loop of part_001's
`renderCombinedHighlighted`. -/
theorem childLoop_text_preserved (ns : NodeList) :
    linesText (childLoop [[]] ns) = nodesText ns := by
  have h := presenter_text_aux.2 [[]] ns (by simp)
  rw [h]
  rfl

/-! ### Well-formedness of the part_001 fragments -/

theorem balAux_append (x y : List Tok) :
    ∀ s, balAux (x ++ y) s = (balAux x s).bind (fun s' => balAux y s') := by
  induction x with
  | nil => intro s; rfl
  | cons t rest ih =>
      intro s
      cases t with
      | text str => simpa [balAux] using ih s
      | openTag tag attrs => simpa [balAux] using ih (tag :: s)
      | closeTag tag =>
          cases s with
          | nil => simp [balAux]
          | cons t' s' =>
              by_cases h : t' = tag
              · simp [balAux, h, ih]
              · simp [balAux, h]

theorem balAux_extend (l : List Tok) :
    ∀ s s', balAux l s = some s' →
      ∀ ext, balAux l (s ++ ext) = some (s' ++ ext) := by
  induction l with
  | nil =>
      intro s s' h ext
      rw [balAux] at h ⊢
      rw [Option.some_inj] at h
      rw [h]
  | cons t rest ih =>
      intro s s' h ext
      cases t with
      | text str =>
          rw [balAux] at h ⊢
          exact ih s s' h ext
      | openTag tag attrs =>
          rw [balAux] at h ⊢
          exact ih (tag :: s) s' h ext
      | closeTag tag =>
          cases s with
          | nil => simp [balAux] at h
          | cons t' s0 =>
              simp only [balAux] at h
              show (if t' = tag then balAux rest (s0 ++ ext) else none)
                = some (s' ++ ext)
              by_cases he : t' = tag
              · rw [if_pos he] at h ⊢
                exact ih s0 s' h ext
              · rw [if_neg he] at h
                exact absurd h (by simp)

theorem balancedToks_nil : balancedToks [] = true := rfl

theorem balancedToks_text (s : String) : balancedToks [Tok.text s] = true := rfl

theorem balancedToks_append (x y : List Tok)
    (hx : balancedToks x = true) (hy : balancedToks y = true) :
    balancedToks (x ++ y) = true := by
  rw [balancedToks, beq_iff_eq] at hx hy ⊢
  rw [balAux_append, hx]
  exact hy

theorem balancedToks_wrap (tag : String) (attrs : List (String × String))
    (l : List Tok) (h : balancedToks l = true) :
    balancedToks (Tok.openTag tag attrs :: (l ++ [Tok.closeTag tag])) = true := by
  rw [balancedToks, beq_iff_eq] at h ⊢
  rw [balAux, balAux_append]
  have : balAux l [tag] = some [tag] := balAux_extend l [] [] h [tag]
  rw [this]
  simp [balAux]

theorem mem_mergeLines (l : List Tok) (acc child : List (List Tok))
    (h : l ∈ mergeLines acc child) :
    l ∈ acc ∨ l ∈ child ∨ l = acc.getLastD [] ++ child.headD [] := by
  rw [mergeLines] at h
  rcases List.mem_append.mp h with h1 | h2
  · exact Or.inl ((List.dropLast_sublist acc).mem h1)
  · rcases List.mem_cons.mp h2 with h3 | h4
    · exact Or.inr (Or.inr h3)
    · exact Or.inr (Or.inl ((List.tail_sublist child).mem h4))

theorem getLastD_default_or_mem {α : Type} (acc : List α) :
    ∀ d : α, acc.getLastD d = d ∨ acc.getLastD d ∈ acc := by
  induction acc with
  | nil => exact fun d => Or.inl rfl
  | cons a rest ih =>
      intro d
      cases rest with
      | nil => exact Or.inr (by simp)
      | cons b bs =>
          rcases ih a with h | h
          · right
            rw [List.getLastD_cons, h]
            exact List.mem_cons_self a _
          · right
            rw [List.getLastD_cons]
            exact List.mem_cons_of_mem a h

theorem headD_default_or_mem {α : Type} (child : List α) (d : α) :
    child.headD d = d ∨ child.headD d ∈ child := by
  cases child with
  | nil => exact Or.inl rfl
  | cons c cs => exact Or.inr (by simp)

theorem presenter_balanced_aux :
    (∀ n, ∀ l ∈ nodeToLines n, balancedToks l = true)
  ∧ (∀ (acc : List (List Tok)) (ns : NodeList),
      (∀ l ∈ acc, balancedToks l = true) →
      ∀ l ∈ childLoop acc ns, balancedToks l = true) :=
  nodeToLines.mutual_induct
    (fun n => ∀ l ∈ nodeToLines n, balancedToks l = true)
    (fun acc ns => (∀ l ∈ acc, balancedToks l = true) →
      ∀ l ∈ childLoop acc ns, balancedToks l = true)
    (fun s => by
      intro l hl
      rw [nodeToLines_text] at hl
      obtain ⟨cs, _, rfl⟩ := List.mem_map.mp hl
      exact balancedToks_text _)
    (fun tag attrs children ih => by
      intro l hl
      rw [nodeToLines_elem] at hl
      obtain ⟨l', hl', rfl⟩ := List.mem_map.mp hl
      have hbal : balancedToks l' = true :=
        ih (fun x hx => by
            rcases List.mem_singleton.mp hx with rfl
            exact balancedToks_nil) l' hl'
      exact balancedToks_wrap tag attrs l' hbal)
    (by
      intro l hl
      rw [nodeToLines_other] at hl
      rcases List.mem_singleton.mp hl with rfl
      exact balancedToks_nil)
    (fun acc => by
      intro hacc l hl
      rw [childLoop_nil] at hl
      exact hacc l hl)
    (fun acc c cs ih1 ih2 => by
      intro hacc l hl
      rw [childLoop_cons] at hl
      refine ih2 ?_ l hl
      intro x hx
      rcases mem_mergeLines x acc (nodeToLines c) hx with h1 | h2 | h3
      · exact hacc x h1
      · exact ih1 x h2
      · rw [h3]
        refine balancedToks_append _ _ ?_ ?_
        · rcases getLastD_default_or_mem acc [] with hd | hm
          · rw [hd]; exact balancedToks_nil
          · exact hacc _ hm
        · rcases headD_default_or_mem (nodeToLines c) [] with hd | hm
          · rw [hd]; exact balancedToks_nil
          · exact ih1 _ hm)

/-- Every per-line fragment produced by part_001's `nodeToLines` is
self-contained, well-formed markup: every tag opened in a line is closed in
that same line. -/
theorem nodeToLines_balanced (n : Node) :
    ∀ l ∈ nodeToLines n, balancedToks l = true :=
  presenter_balanced_aux.1 n

/-- Every line an element's content touches carries a re-opened copy of the
element's tag — same name, same attributes — at its start and the matching
closing tag at its end (part_001's `nodeToLines`). -/
theorem nodeToLines_elem_reopens (tag : String) (attrs : List (String × String))
    (children : NodeList) :
    ∀ l ∈ nodeToLines (Node.elem tag attrs children),
      ∃ inner, l = Tok.openTag tag attrs :: (inner ++ [Tok.closeTag tag]) := by
  intro l hl
  rw [nodeToLines_elem] at hl
  obtain ⟨l', _, rfl⟩ := List.mem_map.mp hl
  exact ⟨l', rfl⟩

/-! ### Counting newlines across a joined line list -/

theorem count_joinNl (ls : List (List Char)) (h : ∀ l ∈ ls, '\n' ∉ l) :
    (joinNl ls).count '\n' = ls.length - 1 := by
  induction ls with
  | nil => rfl
  | cons l rest ih =>
      cases rest with
      | nil =>
          show l.count '\n' = 0
          exact List.count_eq_zero.mpr (by simpa using h l (by simp))
      | cons m ms =>
          rw [joinNl_cons_of_ne_nil _ _ (by simp), List.count_append]
          have hl0 : l.count '\n' = 0 :=
            List.count_eq_zero.mpr (by simpa using h l (by simp))
          have hr : (joinNl (m :: ms)).count '\n' = (m :: ms).length - 1 :=
            ih (fun x hx => h x (List.mem_cons_of_mem l hx))
          rw [hl0, List.count_cons]
          simp only [List.length_cons] at hr ⊢
          simp [hr]

/-! ### Claim theorems for the diff presenter -/

/-- C4 (code bug in extension.ts): `splitHighlightedHtmlToLines` appends the
closing tag to every line an element touches but never re-opens the tag on
continuation lines, contradicting its own comment ("ensuring tags are
properly opened/closed on each produced line"): on
`<span class="string">a\nb</span>` the second produced line is
`b</span>` — no re-opened tag and not well-formed — whereas part_001's
`nodeToLines` (the fixed draft) re-opens the span with identical attributes
on both lines. -/
theorem claim4_walk_missing_reopen :
    splitHighlightedHtmlToLines
        (NodeList.cons (Node.elem "span" [("class", "string")]
          (NodeList.cons (Node.text "a\nb") NodeList.nil)) NodeList.nil)
      = [[Tok.openTag "span" [("class", "string")], Tok.text "a",
          Tok.closeTag "span"],
         [Tok.text "b", Tok.closeTag "span"]]
  ∧ balancedToks [Tok.text "b", Tok.closeTag "span"] = false
  ∧ nodeToLines (Node.elem "span" [("class", "string")]
        (NodeList.cons (Node.text "a\nb") NodeList.nil))
      = [[Tok.openTag "span" [("class", "string")], Tok.text "a",
          Tok.closeTag "span"],
         [Tok.openTag "span" [("class", "string")], Tok.text "b",
          Tok.closeTag "span"]] :=
  ⟨by decide, by decide, by decide⟩

/-- C6 (code bug in extension.ts): the top-level loop of
`splitHighlightedHtmlToLines` calls `walk(child, 0)` for every top-level
node, discarding the returned cursor, so sibling nodes all restart at line
0: on the two text nodes `a\nb` and `c` the produced lines rejoin to
`ac\nb` instead of the original content `a\nbc`, violating the
concatenation-equivalence; part_001's pipeline on the spanning-`<span>`
scenario produces two self-contained span fragments whose inner texts
rejoin to the original spanned text. -/
theorem claim6_walk_text_scramble :
    splitHighlightedHtmlToLines
        (NodeList.cons (Node.text "a\nb")
          (NodeList.cons (Node.text "c") NodeList.nil))
      = [[Tok.text "a", Tok.text "c"], [Tok.text "b"]]
  ∧ linesText [[Tok.text "a", Tok.text "c"], [Tok.text "b"]] = "ac\nb".data
  ∧ nodesText (NodeList.cons (Node.text "a\nb")
        (NodeList.cons (Node.text "c") NodeList.nil)) = "a\nbc".data
  ∧ linesText (splitHighlightedHtmlToLines
        (NodeList.cons (Node.text "a\nb")
          (NodeList.cons (Node.text "c") NodeList.nil)))
      ≠ nodesText (NodeList.cons (Node.text "a\nb")
          (NodeList.cons (Node.text "c") NodeList.nil))
  ∧ renderCombinedHighlighted
        (NodeList.cons (Node.elem "span" [("class", "string")]
          (NodeList.cons (Node.text "foo\nbar") NodeList.nil)) NodeList.nil)
        [Kind.same, Kind.same]
      = [{ type := Kind.same,
           html := [Tok.openTag "span" [("class", "string")], Tok.text "foo",
                    Tok.closeTag "span"] },
         { type := Kind.same,
           html := [Tok.openTag "span" [("class", "string")], Tok.text "bar",
                    Tok.closeTag "span"] }]
  ∧ joinNl [lineText [Tok.openTag "span" [("class", "string")], Tok.text "foo",
        Tok.closeTag "span"],
      lineText [Tok.openTag "span" [("class", "string")], Tok.text "bar",
        Tok.closeTag "span"]] = "foo\nbar".data :=
  ⟨by decide, by decide, by decide, by decide, by decide, by decide⟩

/-- C5: for a markup tree whose textual content is the newline-joined
concatenation of the merged view's (newline-free) line texts — the way the
presenter is invoked — part_001's `renderCombinedHighlighted` yields one
rendered line per merged entry, with the documented off-by-one tolerance:
the output length is the merged length padded to at least one placeholder
line, and no line-count divergence is ever an error. -/
theorem claim5_render_linecount (merged : List LineRecord) (nodes : NodeList)
    (hfree : ∀ r ∈ merged, '\n' ∉ r.text.data)
    (htext : nodesText nodes = joinNl (merged.map (fun r => r.text.data))) :
    (renderCombinedHighlighted nodes (merged.map (fun r => r.type))).length
      = max merged.length 1 := by
  have hlen0 : (childLoop [[]] nodes).length
      = 1 + (nodesText nodes).count '\n' := by
    rw [childLoop_length [[]] nodes (by simp)]
    rfl
  have hcount : (nodesText nodes).count '\n' = merged.length - 1 := by
    rw [htext, count_joinNl]
    · rw [List.length_map]
    · intro l hl
      obtain ⟨r, hr, rfl⟩ := List.mem_map.mp hl
      exact hfree r hr
  rw [hcount] at hlen0
  simp only [renderCombinedHighlighted, highlightLines, List.length_map,
    List.length_range]
  split
  · next hcond =>
      rw [List.length_dropLast]
      have h1 := hcond.1
      omega
  · next hcond =>
      omega

/-- Witness for C5: a two-entry merged view rendered against a spanning
`<span>` tree yields exactly two rendered lines. -/
theorem claim5_render_linecount_witness :
    (renderCombinedHighlighted
        (NodeList.cons (Node.elem "span" [("class", "string")]
          (NodeList.cons (Node.text "foo\nbar") NodeList.nil)) NodeList.nil)
        (([{ type := Kind.same, text := "foo" },
           { type := Kind.add, text := "bar" }] : List LineRecord).map
          (fun r => r.type))).length
      = max ([{ type := Kind.same, text := "foo" },
              { type := Kind.add, text := "bar" }] : List LineRecord).length 1 :=
  claim5_render_linecount
    [{ type := Kind.same, text := "foo" }, { type := Kind.add, text := "bar" }]
    (NodeList.cons (Node.elem "span" [("class", "string")]
      (NodeList.cons (Node.text "foo\nbar") NodeList.nil)) NodeList.nil)
    (by decide) (by decide)

/-- C10: the final rendering loop is total on any combination of split
lines and type array: the output length is the maximum of the two lengths,
an index at or beyond the type array is classified `same`, and a missing or
empty highlight fragment is rendered as the `&nbsp;` placeholder. -/
theorem claim10_render_robust (nodes : NodeList) (types : List Kind) :
    (renderCombinedHighlighted nodes types).length
      = max (highlightLines nodes).length types.length
  ∧ (∀ i, ∀ h : i < (renderCombinedHighlighted nodes types).length,
      types.length ≤ i →
      ((renderCombinedHighlighted nodes types).get ⟨i, h⟩).type = Kind.same)
  ∧ (∀ i, ∀ h : i < (renderCombinedHighlighted nodes types).length,
      lineStr ((highlightLines nodes).getD i []) = "" →
      ((renderCombinedHighlighted nodes types).get ⟨i, h⟩).html = [nbspTok]) := by
  refine ⟨by simp [renderCombinedHighlighted], ?_, ?_⟩
  · intro i h hle
    have hget : (renderCombinedHighlighted nodes types).get ⟨i, h⟩
        = { type := types.getD i Kind.same,
            html := if lineStr ((highlightLines nodes).getD i []) = ""
              then [nbspTok] else (highlightLines nodes).getD i [] } := by
      simp [renderCombinedHighlighted]
    rw [hget]
    exact List.getD_eq_default types Kind.same hle
  · intro i h hempty
    have hget : (renderCombinedHighlighted nodes types).get ⟨i, h⟩
        = { type := types.getD i Kind.same,
            html := if lineStr ((highlightLines nodes).getD i []) = ""
              then [nbspTok] else (highlightLines nodes).getD i [] } := by
      simp [renderCombinedHighlighted]
    rw [hget]
    show (if lineStr ((highlightLines nodes).getD i []) = "" then [nbspTok]
      else (highlightLines nodes).getD i []) = [nbspTok]
    rw [if_pos hempty]

/-- Witness for C10: with three highlight lines (the middle one empty) and
one type, index 2 is beyond the type array and classified `same`, and the
empty middle fragment renders as the placeholder. -/
theorem claim10_render_robust_witness :
    ((renderCombinedHighlighted (NodeList.cons (Node.text "x\n\nz") NodeList.nil)
        [Kind.add]).get ⟨2, by decide⟩).type = Kind.same
  ∧ ((renderCombinedHighlighted (NodeList.cons (Node.text "x\n\nz") NodeList.nil)
        [Kind.add]).get ⟨1, by decide⟩).html = [nbspTok] :=
  ⟨(claim10_render_robust (NodeList.cons (Node.text "x\n\nz") NodeList.nil)
      [Kind.add]).2.1 2 (by decide) (by decide),
   (claim10_render_robust (NodeList.cons (Node.text "x\n\nz") NodeList.nil)
      [Kind.add]).2.2 1 (by decide) (by decide)⟩

end FastGitFileHistory
